import Mathlib

/-!
Shallow embedding of `tslearn/utils.py`: the canonicalization and sizing
engine for (possibly multivariate, possibly unequal-length) time series,
the text codec, the file writer, and the `LabelCategorizer`.

Modelling conventions:
* A numpy float value is modelled as `Option ℚ`: `none` is a non-finite
  value (the NaN padding sentinel), `some q` a finite value.
* A numpy 2-D array is a `List (List Val)` (rows = timesteps); claims that
  need rectangularity state it as a hypothesis (`wf`).
* Python strings are `List Char`; `str.split(sep)` and `sep.join` for a
  one-character separator are `splitOnChar` / `joinSep`.
* A Python function that can raise returns `Option`; `none` is the raised
  exception propagating to the caller.
-/

namespace Tslearn

/-- A single array cell: `none` models a non-finite float (the NaN sentinel),
`some q` a finite value. -/
abbrev Val := Option ℚ

/-- Argument of `to_time_series`: an array-like with one axis (a flat list of
scalars) or two axes (a list of timestep rows). The scalar (0-axis) case of
`to_time_series_dataset`'s promotion branch cannot occur for these inputs,
since `numpy.array` of a list has at least one axis. -/
inductive TSInput where
  | oneD (xs : List Val)
  | twoD (rows : List (List Val))
deriving DecidableEq

/-- Well-formedness of an input for shape inference: a two-axis input must be
a nonempty rectangular matrix (otherwise `numpy.array` would not produce a
2-D float array of that shape). One-axis inputs are always well-formed. -/
def wf : TSInput → Prop
  | .oneD _ => True
  | .twoD rows => rows ≠ [] ∧ ∀ r ∈ rows, r.length = (rows.headD []).length

instance : DecidablePred wf := fun t => by
  cases t <;> simp only [wf] <;> infer_instance

/-- Body of `to_time_series(ts)` without NaN removal: a 1-axis input is
reshaped to `(-1, 1)`; a 2-axis input is kept as is (the float cast is the
identity in this model). -/
def to_time_series : TSInput → List (List Val)
  | .oneD xs => xs.map (fun v => [v])
  | .twoD rows => rows

/-- Number of columns `to_time_series(t).shape[1]`: 1 for a one-axis input
(after the `reshape((-1, 1))`), the row width for a rectangular two-axis
input. -/
def canonDim : TSInput → Nat
  | .oneD _ => 1
  | .twoD rows => (rows.headD []).length

/-- One loop condition of `ts_size`: `numpy.any(numpy.isfinite(row))`. -/
def rowHasFinite (row : List Val) : Bool :=
  row.any (fun v => v.isSome)

/-- The `while sz > 0 and not numpy.any(numpy.isfinite(ts_[sz - 1])): sz -= 1`
loop of `ts_size` on a canonical 2-D series: the length after removing the
maximal trailing block of rows with no finite entry. -/
def ts_size_c : List (List Val) → Nat
  | [] => 0
  | row :: rest =>
    let n := ts_size_c rest
    if n = 0 ∧ rowHasFinite row = false then 0 else n + 1

/-- `ts_size(ts)`: canonicalize, then trim trailing all-non-finite rows. -/
def ts_size (t : TSInput) : Nat :=
  ts_size_c (to_time_series t)

/-- `to_time_series(ts, remove_nans=True)`: the canonical series cut at
`ts_size`. -/
def to_time_series_trim (t : TSInput) : List (List Val) :=
  (to_time_series t).take (ts_size t)

/-- One iteration of the copy loop of `to_time_series_dataset`:
`dataset_out[i, :ts.shape[0]] = ts` on the all-NaN row `i` of shape
`(max_sz, d)`, where `ts` is the trimmed entry whose canonical column count
is `dI`. Numpy assignment broadcasts a `(L, 1)` value across the `d` target
columns and raises (`none`) when `dI` is neither `d` nor `1`. -/
def writeEntry (maxSz d dI : Nat) (ts : List (List Val)) :
    Option (List (List Val)) :=
  if dI = d ∨ dI = 1 then
    some ((ts.map (fun row => if dI = d then row
            else List.replicate d (row.headD none))) ++
          List.replicate (maxSz - ts.length) (List.replicate d none))
  else none

/-- `to_time_series_dataset(dataset)`: `none` models the raised exception
(`dataset[0]` on an empty collection, or a numpy broadcast error in the copy
loop). `max_sz` is the maximum of `ts_size(to_time_series(ts))` over the
entries and `d` is taken from the first entry. -/
def to_time_series_dataset (dataset : List TSInput) :
    Option (List (List (List Val))) :=
  match dataset with
  | [] => none
  | first :: _ =>
    let maxSz := (dataset.map ts_size).foldl max 0
    let d := canonDim first
    dataset.mapM (fun t => writeEntry maxSz d (canonDim t) (to_time_series_trim t))

/-! ### Text codec (`timeseries_to_str`, `str_to_timeseries`) -/

/-- A Python string, as a list of characters. -/
abbrev Str := List Char

/-- Python `sep.join(l)` for a one-character separator. -/
def joinSep (c : Char) : List Str → Str
  | [] => []
  | [s] => s
  | s :: rest => s ++ c :: joinSep c rest

/-- Python `s.split(sep)` for a one-character separator (`"".split(sep)` is
`[""]`, and empty fields are kept). -/
def splitOnChar (c : Char) : Str → List Str
  | [] => [[]]
  | x :: xs =>
    if x = c then [] :: splitOnChar c xs
    else
      match splitOnChar c xs with
      | [] => [[x]]
      | t :: ts => (x :: t) :: ts

/-- The text `%`-formatting of a single array cell with the caller-supplied
format `fmtF` for finite values; formatting the NaN sentinel yields the
token `"nan"`. -/
def formatVal (fmtF : ℚ → Str) : Val → Str
  | some q => fmtF q
  | none => ['n', 'a', 'n']

/-- `timeseries_to_str(ts, fmt)`: canonicalize (without NaN removal), then
for each of the `dim = ts_.shape[1]` columns emit the space-joined formatted
column `ts_[:, d]`, columns joined by `"|"`. -/
def timeseries_to_str (fmtF : ℚ → Str) (t : TSInput) : Str :=
  let ts := to_time_series t
  let dim := canonDim t
  joinSep '|' ((List.range dim).map (fun d =>
    joinSep ' ' (ts.map (fun row => formatVal fmtF (row.getD d none)))))

/-- `numpy.transpose` of a rectangular matrix: column `i` of the input
becomes row `i` of the output (row count read off the first row). -/
def npTranspose (m : List (List Val)) : List (List Val) :=
  (List.range (m.headD []).length).map (fun i => m.map (fun row => row.getD i none))

/-- `str_to_timeseries(ts_str)`: split on `"|"` into dimensions, split each
dimension on `" "` into tokens, convert and transpose into `(length, d)`,
and canonicalize. The source converts tokens to float (`parseF`; `"nan"`
parses to the sentinel) after transposing; elementwise conversion commutes
with the transpose, so it is applied to the tokens here. -/
def str_to_timeseries (parseF : Str → Val) (s : Str) : List (List Val) :=
  let dims := splitOnChar '|' s
  let ts := dims.map (splitOnChar ' ')
  to_time_series (.twoD (npTranspose (ts.map (fun toks => toks.map parseF))))

/-! ### File writer (`save_timeseries_txt`) -/

/-- Final state of the file handle opened by `save_timeseries_txt`: whether
`fp.close()` was executed, and the lines written before exit. -/
structure FileState where
  closed : Bool
  lines : List Str
deriving DecidableEq

/-- The write loop of `save_timeseries_txt`: the encoder `enc` models
`timeseries_to_str` together with its possibility of raising (`none`). The
source has no `try`/`finally` or `with` block, so an encoding error
propagates out of the loop before the final `fp.close()` line runs. -/
def saveLoop (enc : TSInput → Option Str) :
    List TSInput → List Str → FileState
  | [], acc => { closed := true, lines := acc.reverse }
  | t :: rest, acc =>
    match enc t with
    | some line => saveLoop enc rest ((line ++ ['\n']) :: acc)
    | none => { closed := false, lines := acc.reverse }

/-- `save_timeseries_txt(fname, dataset, fmt)`: open, write one encoded
newline-terminated line per series, close. -/
def save_timeseries_txt (enc : TSInput → Option Str)
    (dataset : List TSInput) : FileState :=
  saveLoop enc dataset []

/-! ### `LabelCategorizer` -/

/-- Fitted state of a `LabelCategorizer`: the constructor flag and the two
mapping attributes set by `_init`/`fit`. The Python dict `forward_match` is
modelled as a partial map from (numeric) labels to indices. -/
structure LabelCategorizer where
  single_column_if_binary : Bool
  forward_match : ℚ → Option Nat
  backward_match : List ℚ

/-- `LabelCategorizer(single_column_if_binary)`: `_init` leaves both maps
empty. -/
def LabelCategorizer.init (b : Bool) : LabelCategorizer :=
  { single_column_if_binary := b, forward_match := fun _ => none,
    backward_match := [] }

/-- `sorted(set(y))`: the distinct labels in ascending order. -/
def sortedValues (y : List ℚ) : List ℚ :=
  List.insertionSort (· ≤ ·) y.dedup

/-- `fit(y)`: re-initialize, then `forward_match[v] = i` and
`backward_match.append(v)` for the `i`-th smallest distinct value `v`. -/
def LabelCategorizer.fit (lc : LabelCategorizer) (y : List ℚ) :
    LabelCategorizer :=
  let values := sortedValues y
  { lc with
    forward_match := fun v =>
      if v ∈ values then some (List.indexOf v values) else none,
    backward_match := values }

/-- One row of `transform`'s output: a zero row of width `C` with entry
`idx` set to 1 (`y_out[i, forward_match[y[i]]] = 1`). -/
def oneHotRow (C idx : Nat) : List ℚ :=
  (List.replicate C (0 : ℚ)).set idx 1

/-- `transform(y)`: `none` models the `KeyError` on a label missing from
`forward_match` or the numpy `IndexError` on an index at or beyond
`n_classes`. In the binary case with `single_column_if_binary`, only column
0 is returned, reshaped to `(n, 1)`. -/
def LabelCategorizer.transform (lc : LabelCategorizer) (y : List ℚ) :
    Option (List (List ℚ)) :=
  Option.map (fun rows =>
      if lc.backward_match.length = 2 ∧ lc.single_column_if_binary = true then
        rows.map (fun r => [r.headD 0])
      else rows)
    (y.mapM (fun v => Option.bind (lc.forward_match v) (fun idx =>
      if idx < lc.backward_match.length then
        some (oneHotRow lc.backward_match.length idx)
      else none)))

/-- `numpy.argmax` over one row: index of the first maximal entry (a later
entry replaces the current best only when strictly greater). The source
raises on an empty row; callers below only pass nonempty rows, for which
this recursion is exact. -/
def argmaxAux : ℚ → Nat → Nat → List ℚ → Nat
  | _, bestIdx, _, [] => bestIdx
  | best, bestIdx, i, x :: xs =>
    if best < x then argmaxAux x i (i + 1) xs
    else argmaxAux best bestIdx (i + 1) xs

/-- `numpy.argmax` of a list (first index of the maximum). -/
def argmax : List ℚ → Nat
  | [] => 0
  | x :: xs => argmaxAux x 0 1 xs

/-- `inverse_transform(y)`: on an `(n, 1)` input with the binary flag, first
`hstack((y_, 1 - y_))`; then per row map `argmax` through `backward_match`.
`none` models the shape-unpacking error on an empty input and the
`IndexError` on an argmax at or beyond `len(backward_match)`. -/
def LabelCategorizer.inverse_transform (lc : LabelCategorizer)
    (y : List (List ℚ)) : Option (List ℚ) :=
  if y = [] then none
  else if (y.headD []).length = 1 ∧ lc.single_column_if_binary = true then
    (y.map (fun r => r ++ r.map (fun c => 1 - c))).mapM
      (fun r => lc.backward_match.get? (argmax r))
  else
    y.mapM (fun r => lc.backward_match.get? (argmax r))

/-- The parameter dictionary built inside `get_params`: the constructor
parameter reported by `BaseEstimator.get_params` plus the two fitted
mappings that the method adds to `out`. -/
structure ParamsOut where
  single_column_if_binary : Bool
  forward_match : ℚ → Option Nat
  backward_match : List ℚ

/-- The local variable `out` of `LabelCategorizer.get_params` after both
assignments. -/
def LabelCategorizer.get_params_out (lc : LabelCategorizer) (_deep : Bool) :
    ParamsOut :=
  { single_column_if_binary := lc.single_column_if_binary,
    forward_match := lc.forward_match,
    backward_match := lc.backward_match }

/-- `get_params(deep)`: the method builds `out` and then falls off the end
of the function body, so it returns Python `None` (modelled `none`). -/
def LabelCategorizer.get_params (lc : LabelCategorizer) (deep : Bool) :
    Option ParamsOut :=
  let _out := lc.get_params_out deep
  none

/-! ### Basic lemmas about `ts_size_c` -/

theorem ts_size_c_le (ts : List (List Val)) : ts_size_c ts ≤ ts.length := by
  induction ts with
  | nil => simp [ts_size_c]
  | cons row rest ih =>
    simp only [ts_size_c, List.length_cons]
    split
    · omega
    · omega

theorem rowHasFinite_eq_false_of_size_le (ts : List (List Val)) :
    ∀ i, ts_size_c ts ≤ i → i < ts.length → rowHasFinite (ts.getD i []) = false := by
  induction ts with
  | nil => intro i _ hi; simp at hi
  | cons row rest ih =>
    intro i hsz hi
    simp only [ts_size_c] at hsz
    by_cases hc : ts_size_c rest = 0 ∧ rowHasFinite row = false
    · rw [if_pos hc] at hsz
      match i with
      | 0 => simpa using hc.2
      | j + 1 =>
        simp only [List.getD_cons_succ]
        exact ih j (hc.1 ▸ Nat.zero_le j) (by simpa using hi)
    · rw [if_neg hc] at hsz
      match i with
      | 0 => omega
      | j + 1 =>
        simp only [List.getD_cons_succ]
        exact ih j (by omega) (by simpa using hi)

theorem rowHasFinite_at_size_sub_one (ts : List (List Val)) :
    0 < ts_size_c ts → rowHasFinite (ts.getD (ts_size_c ts - 1) []) = true := by
  induction ts with
  | nil => simp [ts_size_c]
  | cons row rest ih =>
    intro hpos
    simp only [ts_size_c] at hpos ⊢
    by_cases hc : ts_size_c rest = 0 ∧ rowHasFinite row = false
    · rw [if_pos hc] at hpos; omega
    · rw [if_neg hc]
      by_cases hz : ts_size_c rest = 0
      · have hrow : rowHasFinite row = true := by
          rcases Bool.eq_false_or_eq_true (rowHasFinite row) with h | h
          · exact h
          · exact absurd ⟨hz, h⟩ hc
        simp [hz, hrow]
      · have h1 : ts_size_c rest + 1 - 1 = (ts_size_c rest - 1) + 1 := by omega
        rw [h1, List.getD_cons_succ]
        exact ih (by omega)

theorem ts_size_c_of_all_pad (ts : List (List Val))
    (h : ∀ r ∈ ts, rowHasFinite r = false) : ts_size_c ts = 0 := by
  induction ts with
  | nil => simp [ts_size_c]
  | cons row rest ih =>
    have hrest := ih (fun r hr => h r (List.mem_cons_of_mem _ hr))
    have hrow := h row (List.mem_cons_self row _)
    simp [ts_size_c, hrest, hrow]

/-- Appending rows with no finite entry does not change `ts_size_c`. -/
theorem ts_size_c_append_pad (ts : List (List Val)) (pad : List (List Val))
    (hpad : ∀ r ∈ pad, rowHasFinite r = false) :
    ts_size_c (ts ++ pad) = ts_size_c ts := by
  induction ts with
  | nil => simpa using ts_size_c_of_all_pad pad hpad
  | cons row rest ih =>
    simp only [List.cons_append, ts_size_c]
    simp only [List.append_eq, ih]

/-- Claim C4 — for every canonical 2-D series, `ts_size` is the index one
past the last timestep with at least one finite feature (a timestep counts
as real exactly when `rowHasFinite`, i.e. when any of its features is
finite): every timestep at or after the returned index has no finite
feature, and if the result is positive the timestep just before it has one.
A zero-length series and a series all of whose timesteps are fully sentinel
both yield 0. -/
theorem C4_ts_size_effective_length (ts : List (List Val)) :
    ts_size (TSInput.twoD ts) ≤ ts.length ∧
    (∀ i, ts_size (TSInput.twoD ts) ≤ i → i < ts.length →
      rowHasFinite (ts.getD i []) = false) ∧
    (0 < ts_size (TSInput.twoD ts) →
      rowHasFinite (ts.getD (ts_size (TSInput.twoD ts) - 1) []) = true) ∧
    (ts = [] → ts_size (TSInput.twoD ts) = 0) ∧
    ((∀ r ∈ ts, rowHasFinite r = false) → ts_size (TSInput.twoD ts) = 0) := by
  refine ⟨ts_size_c_le ts, rowHasFinite_eq_false_of_size_le ts,
    rowHasFinite_at_size_sub_one ts, ?_, ts_size_c_of_all_pad ts⟩
  rintro rfl
  simp [ts_size, to_time_series, ts_size_c]

/-- Witness for C4 at the concrete series `[[1, NaN], [NaN, NaN]]`, whose
effective length is 1. -/
theorem C4_ts_size_effective_length_witness :
    ts_size (TSInput.twoD [[some 1, none], [none, none]]) = 1 ∧
    (∀ i, ts_size (TSInput.twoD [[some 1, none], [none, none]]) ≤ i →
      i < 2 → rowHasFinite ([[some (1:ℚ), none], [none, none]].getD i []) = false) := by
  refine ⟨by decide, ?_⟩
  have h := (C4_ts_size_effective_length [[some 1, none], [none, none]]).2.1
  simpa using h

/-- Claim C5 — appending `k` fully-sentinel timesteps (of any width `d`) at
the tail of a series leaves the computed effective length equal to the
original series' length. Per the data model, a (non-padded) series consists
of real timesteps, i.e. every timestep has at least one finite feature. -/
theorem C5_pad_preserves_length (ts : List (List Val)) (d k : Nat)
    (h : ∀ r ∈ ts, rowHasFinite r = true) :
    ts_size (TSInput.twoD (ts ++ List.replicate k (List.replicate d none)))
      = ts.length := by
  have hpad : ∀ r ∈ List.replicate k (List.replicate d (none : Val)),
      rowHasFinite r = false := by
    intro r hr
    rw [List.eq_of_mem_replicate hr]
    simp [rowHasFinite]
  show ts_size_c (ts ++ List.replicate k (List.replicate d none)) = ts.length
  rw [ts_size_c_append_pad ts _ hpad]
  induction ts with
  | nil => simp [ts_size_c]
  | cons row rest ih =>
    have hrow := h row (List.mem_cons_self row _)
    have hrest := ih (fun r hr => h r (List.mem_cons_of_mem _ hr))
    simp [ts_size_c, hrest, hrow]

/-- Witness for C5: padding the one-timestep series `[[7]]` with three
fully-sentinel timesteps keeps effective length 1. -/
theorem C5_pad_preserves_length_witness :
    (∀ r ∈ [[some (7:ℚ)]], rowHasFinite r = true) ∧
    ts_size (TSInput.twoD ([[some 7]] ++ List.replicate 3 (List.replicate 1 none))) = 1 := by
  exact ⟨by decide, C5_pad_preserves_length [[some 7]] 1 3 (by decide)⟩

/-- Claim C9 — canonicalizing an empty collection of series does not return
an empty canonical array: the access `dataset[0]` raises immediately
(modelled `none`), so an empty batch is outside the operation's domain. -/
theorem C9_empty_dataset_fails : to_time_series_dataset [] = none := rfl

/-- Claim C10 — for every `LabelCategorizer` and every value of `deep`,
`get_params` builds a parameter dictionary holding `forward_match` and
`backward_match` (the local `out`), but the method returns `None`: the
computed mapping never reaches the caller. -/
theorem C10_get_params_returns_none (lc : LabelCategorizer) (deep : Bool) :
    lc.get_params deep = none ∧
    (lc.get_params_out deep).forward_match = lc.forward_match ∧
    (lc.get_params_out deep).backward_match = lc.backward_match ∧
    (lc.get_params_out deep).single_column_if_binary
      = lc.single_column_if_binary :=
  ⟨rfl, rfl, rfl, rfl⟩

/-- Counterexample to claim C8 as stated: on the exit path where encoding a
series raises (the encoder returns `none` on the single entry), the file
resource is not closed — `save_timeseries_txt` has no `try`/`finally` or
`with` block, so `fp.close()` is never reached. -/
theorem C8_counterexample :
    (save_timeseries_txt (fun _ => none) [TSInput.oneD [some 1]]).closed
      = false := rfl

/-- Claim C8 as amended — the file resource is flushed and closed on the
normal exit path: when every series of the dataset encodes without error,
the writer reaches `fp.close()` and the file holds one newline-terminated
encoded line per series. On an error exit path the exception propagates
and the file is not closed. -/
theorem saveLoop_all_ok (enc : TSInput → Option Str) :
    ∀ (l : List TSInput) (acc : List Str), (∀ t ∈ l, (enc t).isSome) →
      saveLoop enc l acc =
        { closed := true,
          lines := acc.reverse ++ l.map (fun t => (enc t).getD [] ++ ['\n']) } := by
  intro l
  induction l with
  | nil => intro acc _; simp [saveLoop]
  | cons t rest ih =>
    intro acc h
    have ht : (enc t).isSome := h t (List.mem_cons_self t _)
    obtain ⟨line, hline⟩ := Option.isSome_iff_exists.mp ht
    have hrest : ∀ u ∈ rest, (enc u).isSome :=
      fun u hu => h u (List.mem_cons_of_mem _ hu)
    simp [saveLoop, hline, ih _ hrest]

theorem C8_closes_on_success (enc : TSInput → Option Str)
    (dataset : List TSInput)
    (h : ∀ t ∈ dataset, (enc t).isSome) :
    (save_timeseries_txt enc dataset).closed = true ∧
    (save_timeseries_txt enc dataset).lines
      = dataset.map (fun t => (enc t).getD [] ++ ['\n']) := by
  rw [save_timeseries_txt, saveLoop_all_ok enc dataset [] h]
  simp

/-- Witness for the amended C8 at a one-entry dataset whose encoder always
succeeds. -/
theorem C8_closes_on_success_witness :
    (∀ t ∈ [TSInput.oneD [some 1]], ((fun _ => some ['x']) t : Option Str).isSome) ∧
    (save_timeseries_txt (fun _ => some ['x']) [TSInput.oneD [some 1]]).closed
      = true :=
  ⟨by decide,
    (C8_closes_on_success (fun _ => some ['x']) [TSInput.oneD [some 1]]
      (by decide)).1⟩

/-! ### Dimensionality mismatch in `to_time_series_dataset` (claim C6) -/

theorem mapM_eq_none_of_mem {α β : Type} (f : α → Option β) :
    ∀ (l : List α) (a : α), a ∈ l → f a = none → l.mapM f = none := by
  intro l
  induction l with
  | nil => intro a ha; simp at ha
  | cons x xs ih =>
    intro a ha hf
    rw [List.mapM_cons]
    rcases List.mem_cons.mp ha with rfl | hmem
    · rw [hf]; rfl
    · cases hfx : f x
      · rfl
      · rw [ih a hmem hf]; rfl

/-- Counterexample to claim C6 as stated: a batch whose first entry has
dimensionality 2 and whose second entry has dimensionality 1 does not fail;
the second entry is silently broadcast into both columns of its row. -/
theorem C6_counterexample :
    canonDim (TSInput.oneD [some 3])
        ≠ canonDim (TSInput.twoD [[some 1, some 2]]) ∧
    to_time_series_dataset [TSInput.twoD [[some 1, some 2]], TSInput.oneD [some 3]]
      = some [[[some 1, some 2]], [[some 3, some 3]]] := by
  constructor
  · decide
  · decide

/-- Claim C6 as amended — canonicalizing the batch fails (numpy broadcast
error, modelled `none`) whenever some entry's dimensionality differs from
the first entry's dimensionality `d` and is not 1; an entry of
dimensionality 1 is instead silently broadcast across the `d` columns of
its row (see the counterexample). -/
theorem C6_mismatch_fails (first : TSInput) (rest : List TSInput)
    (t : TSInput) (ht : t ∈ first :: rest)
    (hdiff : canonDim t ≠ canonDim first) (h1 : canonDim t ≠ 1) :
    to_time_series_dataset (first :: rest) = none := by
  rw [to_time_series_dataset]
  exact mapM_eq_none_of_mem _ (first :: rest) t ht
    (by rw [writeEntry, if_neg]; push_neg; exact ⟨hdiff, h1⟩)

/-- Witness for the amended C6: a dimensionality-3 entry after a
dimensionality-2 first entry makes the operation fail. -/
theorem C6_mismatch_fails_witness :
    (TSInput.twoD [[some 3, some 4, some 5]]
        ∈ [TSInput.twoD [[some 1, some 2]], TSInput.twoD [[some 3, some 4, some 5]]]) ∧
    to_time_series_dataset
      [TSInput.twoD [[some 1, some 2]], TSInput.twoD [[some 3, some 4, some 5]]]
      = none :=
  ⟨by decide,
    C6_mismatch_fails (TSInput.twoD [[some 1, some 2]])
      [TSInput.twoD [[some 3, some 4, some 5]]]
      (TSInput.twoD [[some 3, some 4, some 5]])
      (by decide) (by decide) (by decide)⟩

/-! ### Padded-dataset shape (claim C1) -/

theorem mapM_eq_some_map {α β : Type} (f : α → Option β) (g : α → β) :
    ∀ (l : List α), (∀ a ∈ l, f a = some (g a)) → l.mapM f = some (l.map g) := by
  intro l
  induction l with
  | nil => intro _; rfl
  | cons x xs ih =>
    intro h
    rw [List.mapM_cons, h x (List.mem_cons_self x _),
      ih (fun a ha => h a (List.mem_cons_of_mem _ ha))]
    rfl

theorem init_le_foldl_max : ∀ (l : List Nat) (a : Nat), a ≤ l.foldl max a := by
  intro l
  induction l with
  | nil => intro a; simp
  | cons x xs ih =>
    intro a
    exact le_trans (Nat.le_max_left a x) (ih (max a x))

theorem le_foldl_max_of_mem (l : List Nat) (x : Nat) (hx : x ∈ l) (a : Nat) :
    x ≤ l.foldl max a := by
  induction l generalizing a with
  | nil => simp at hx
  | cons y ys ih =>
    rcases List.mem_cons.mp hx with rfl | hmem
    · exact le_trans (Nat.le_max_right a x) (init_le_foldl_max ys (max a x))
    · exact ih hmem (max a y)

theorem getD_map_getD {α β : Type} (f : α → β) (l : List α) (i : Nat)
    (d0 : α) (d1 : β) (hi : i < l.length) :
    (l.map f).getD i d1 = f (l.getD i d0) := by
  rw [List.getD_eq_getElem _ _ (by simpa using hi), List.getD_eq_getElem _ _ hi,
    List.getElem_map]

theorem getD_mem_of_lt {α : Type} (l : List α) (i : Nat) (d0 : α)
    (hi : i < l.length) : l.getD i d0 ∈ l := by
  rw [List.getD_eq_getElem _ _ hi]
  exact List.getElem_mem hi

theorem getD_replicate_of_lt {α : Type} (n i : Nat) (a d0 : α) (h : i < n) :
    (List.replicate n a).getD i d0 = a := by
  rw [List.getD_eq_getElem?_getD, List.getElem?_replicate, if_pos h]
  rfl

/-- Every row of a well-formed canonical series has `canonDim` entries. -/
theorem row_length_of_wf (t : TSInput) (hwf : wf t) :
    ∀ r ∈ to_time_series t, r.length = canonDim t := by
  cases t with
  | oneD xs =>
    intro r hr
    simp only [to_time_series, List.mem_map] at hr
    obtain ⟨v, _, rfl⟩ := hr
    rfl
  | twoD rows => exact hwf.2

theorem trim_length (t : TSInput) :
    (to_time_series_trim t).length = ts_size t := by
  rw [to_time_series_trim, List.length_take]
  exact min_eq_left (ts_size_c_le (to_time_series t))

/-- Claim C1 — for a nonempty batch of well-formed entries of common
dimensionality `d` with effective lengths `L_i = ts_size`, the
canonicalized dataset is an `(n, max_i L_i, d)` array whose row `i` starts
with the first `L_i` timesteps of the original (canonical) series and is
the all-sentinel timestep from index `L_i` on. -/
theorem C1_dataset_padded_shape (dataset : List TSInput) (d : Nat)
    (hne : dataset ≠ [])
    (hwf : ∀ t ∈ dataset, wf t)
    (hd : ∀ t ∈ dataset, canonDim t = d) :
    ∃ out, to_time_series_dataset dataset = some out ∧
      out.length = dataset.length ∧
      ∀ i, i < dataset.length →
        (out.getD i []).length = (dataset.map ts_size).foldl max 0 ∧
        (∀ j, j < (dataset.map ts_size).foldl max 0 →
          ((out.getD i []).getD j []).length = d) ∧
        ((out.getD i []).take (ts_size (dataset.getD i (TSInput.oneD [])))
          = (to_time_series (dataset.getD i (TSInput.oneD []))).take
              (ts_size (dataset.getD i (TSInput.oneD [])))) ∧
        (∀ j, ts_size (dataset.getD i (TSInput.oneD [])) ≤ j →
          j < (dataset.map ts_size).foldl max 0 →
          (out.getD i []).getD j [] = List.replicate d none) := by
  match dataset, hne with
  | first :: rest, _ =>
  set ds := first :: rest with hds
  set maxSz := (ds.map ts_size).foldl max 0 with hmax
  have hd0 : canonDim first = d := hd first (List.mem_cons_self first _)
  -- the value the copy loop stores for each entry
  set g : TSInput → List (List Val) := fun t =>
    to_time_series_trim t ++
      List.replicate (maxSz - (to_time_series_trim t).length)
        (List.replicate d none) with hg
  have hsome : ∀ t ∈ ds,
      writeEntry maxSz (canonDim first) (canonDim t) (to_time_series_trim t)
        = some (g t) := by
    intro t htm
    rw [writeEntry, hd0, hd t htm, if_pos (Or.inl rfl)]
    simp [hg]
  have hout : to_time_series_dataset ds = some (ds.map g) := by
    rw [to_time_series_dataset]
    exact mapM_eq_some_map _ g ds hsome
  refine ⟨ds.map g, hout, by simp, ?_⟩
  intro i hi
  have hti : ds.getD i (TSInput.oneD []) ∈ ds := getD_mem_of_lt ds i _ hi
  set t := ds.getD i (TSInput.oneD []) with hti_def
  have houtr : (ds.map g).getD i [] = g t :=
    getD_map_getD g ds i (TSInput.oneD []) [] hi
  have hLle : ts_size t ≤ maxSz :=
    le_foldl_max_of_mem _ _ (List.mem_map_of_mem ts_size hti) 0
  have htl : (to_time_series_trim t).length = ts_size t := trim_length t
  refine ⟨?_, ?_, ?_, ?_⟩
  · rw [houtr, hg]
    simp only [List.length_append, List.length_replicate, htl]
    omega
  · intro j hj
    rw [houtr, hg]
    simp only []
    by_cases hjL : j < (to_time_series_trim t).length
    · rw [List.getD_append _ _ _ _ hjL]
      have hrm : (to_time_series_trim t).getD j [] ∈ to_time_series t :=
        List.take_subset _ _ (getD_mem_of_lt _ j [] hjL)
      rw [row_length_of_wf t (hwf t hti) _ hrm, hd t hti]
    · rw [List.getD_append_right _ _ _ _ (by omega)]
      rw [getD_replicate_of_lt _ _ _ _ (by omega)]
      exact List.length_replicate d none
  · rw [houtr, hg, ← htl, List.take_left, htl]
    rfl
  · intro j hjL hjM
    rw [houtr, hg]
    rw [List.getD_append_right _ _ _ _ (by omega)]
    exact getD_replicate_of_lt _ _ _ _ (by omega)

/-- Witness for C1 at the doctest batch `[[1, 2], [1, 4, 3]]`: shape
`(2, 3, 1)`, row 0 is `[[1], [2], [NaN]]`. -/
theorem C1_dataset_padded_shape_witness :
    ([TSInput.oneD [some 1, some 2], TSInput.oneD [some 1, some 4, some 3]] ≠
      ([] : List TSInput)) ∧
    ∃ out, to_time_series_dataset
        [TSInput.oneD [some 1, some 2], TSInput.oneD [some 1, some 4, some 3]]
        = some out ∧ out.length = 2 := by
  refine ⟨by decide, ?_⟩
  obtain ⟨out, h1, h2, _⟩ := C1_dataset_padded_shape
    [TSInput.oneD [some 1, some 2], TSInput.oneD [some 1, some 4, some 3]] 1
    (by decide) (by decide) (by decide)
  exact ⟨out, h1, h2⟩

/-! ### Split/join inverse lemmas for the text codec -/

theorem splitOnChar_ne_nil (c : Char) : ∀ s : Str, splitOnChar c s ≠ [] := by
  intro s
  induction s with
  | nil => simp [splitOnChar]
  | cons x xs ih =>
    rw [splitOnChar]
    split
    · simp
    · cases h : splitOnChar c xs with
      | nil => simp
      | cons t ts => simp

theorem splitOnChar_no_sep (c : Char) :
    ∀ s : Str, c ∉ s → splitOnChar c s = [s] := by
  intro s
  induction s with
  | nil => intro _; rfl
  | cons x xs ih =>
    intro h
    have hx : ¬ x = c := fun hxc => h (hxc ▸ List.mem_cons_self x xs)
    have hxs : c ∉ xs := fun hm => h (List.mem_cons_of_mem x hm)
    rw [splitOnChar, if_neg hx, ih hxs]

theorem splitOnChar_sep_append (c : Char) :
    ∀ (s t : Str), c ∉ s → splitOnChar c (s ++ c :: t) = s :: splitOnChar c t := by
  intro s
  induction s with
  | nil =>
    intro t _
    rw [List.nil_append, splitOnChar, if_pos rfl]
  | cons x xs ih =>
    intro t h
    have hx : ¬ x = c := fun hxc => h (hxc ▸ List.mem_cons_self x xs)
    have hxs : c ∉ xs := fun hm => h (List.mem_cons_of_mem x hm)
    rw [List.cons_append, splitOnChar, if_neg hx, ih t hxs]

theorem splitOnChar_joinSep (c : Char) :
    ∀ l : List Str, l ≠ [] → (∀ s ∈ l, c ∉ s) →
      splitOnChar c (joinSep c l) = l := by
  intro l
  induction l with
  | nil => intro h; exact absurd rfl h
  | cons s rest ih =>
    intro _ h
    cases rest with
    | nil =>
      rw [joinSep]
      exact splitOnChar_no_sep c s (h s (List.mem_cons_self s _))
    | cons s2 rest2 =>
      have hj : joinSep c (s :: s2 :: rest2) = s ++ c :: joinSep c (s2 :: rest2) := rfl
      rw [hj, splitOnChar_sep_append c s _ (h s (List.mem_cons_self s _)),
        ih (by simp) (fun u hu => h u (List.mem_cons_of_mem _ hu))]

theorem mem_joinSep (c : Char) :
    ∀ (l : List Str) (a : Char), a ∈ joinSep c l → a = c ∨ ∃ s ∈ l, a ∈ s := by
  intro l
  induction l with
  | nil => intro a ha; simp [joinSep] at ha
  | cons s rest ih =>
    intro a ha
    cases rest with
    | nil =>
      rw [joinSep] at ha
      exact Or.inr ⟨s, List.mem_cons_self s _, ha⟩
    | cons s2 rest2 =>
      have hj : joinSep c (s :: s2 :: rest2) = s ++ c :: joinSep c (s2 :: rest2) := rfl
      rw [hj] at ha
      rcases List.mem_append.mp ha with hs | hrest
      · exact Or.inr ⟨s, List.mem_cons_self s _, hs⟩
      · rcases List.mem_cons.mp hrest with rfl | htail
        · exact Or.inl rfl
        · rcases ih a htail with hc | ⟨u, hu, hau⟩
          · exact Or.inl hc
          · exact Or.inr ⟨u, List.mem_cons_of_mem _ hu, hau⟩

/-! ### Encoded-line structure (claims C2 and C3) -/

/-- Reading `l` off at indices `0, …, n-1` with any default reproduces `l`
when `l` has length `n`. -/
theorem range_map_getD {α : Type} (l : List α) (n : Nat) (d0 : α)
    (hl : l.length = n) : (List.range n).map (fun j => l.getD j d0) = l := by
  apply List.ext_getElem
  · simp [hl]
  · intro k h1 h2
    rw [List.getElem_map, List.getElem_range]
    exact (List.getD_eq_getElem l d0 h2).symm ▸ List.getD_eq_getElem l d0 h2

/-- Splitting the encoded line back on `"|"` and `" "` recovers, for each of
the `canonDim t` dimensions, one formatted token per timestep of the full
canonical series — including sentinel timesteps. Holds whenever no
formatted token contains a separator character. -/
theorem decode_split_encode (fmtF : ℚ → Str) (t : TSInput)
    (hwf : wf t) (hdpos : 0 < canonDim t) (hne : to_time_series t ≠ [])
    (htok : ∀ row ∈ to_time_series t, ∀ v ∈ row,
      ' ' ∉ formatVal fmtF v ∧ '|' ∉ formatVal fmtF v) :
    (splitOnChar '|' (timeseries_to_str fmtF t)).map (splitOnChar ' ')
      = (List.range (canonDim t)).map (fun j =>
          (to_time_series t).map (fun row => formatVal fmtF (row.getD j none))) := by
  have hvmem : ∀ row ∈ to_time_series t, ∀ j < canonDim t,
      row.getD j none ∈ row := by
    intro row hrow j hj
    exact getD_mem_of_lt row j none
      (by rw [row_length_of_wf t hwf row hrow]; exact hj)
  have houter : splitOnChar '|' (timeseries_to_str fmtF t)
      = (List.range (canonDim t)).map (fun j =>
          joinSep ' ' ((to_time_series t).map
            (fun row => formatVal fmtF (row.getD j none)))) := by
    rw [timeseries_to_str]
    apply splitOnChar_joinSep
    · intro habs
      have := congrArg List.length habs
      simp at this
      omega
    · intro g hg
      rw [List.mem_map] at hg
      obtain ⟨j, hj, rfl⟩ := hg
      intro hbar
      rcases mem_joinSep ' ' _ '|' hbar with hc | ⟨s, hs, hbs⟩
      · exact absurd hc (by decide)
      · rw [List.mem_map] at hs
        obtain ⟨row, hrow, rfl⟩ := hs
        exact (htok row hrow _
          (hvmem row hrow j (List.mem_range.mp hj))).2 hbs
  rw [houter, List.map_map]
  apply List.map_congr_left
  intro j hj
  simp only [Function.comp]
  apply splitOnChar_joinSep
  · intro habs
    have := congrArg List.length habs
    simp at this
    exact hne this
  · intro s hs
    rw [List.mem_map] at hs
    obtain ⟨row, hrow, rfl⟩ := hs
    exact (htok row hrow _ (hvmem row hrow j (List.mem_range.mp hj))).1

/-- Counterexample to claim C2 as stated: the series `[1, NaN]` has
effective length 1, yet its encoded line is `"1 nan"` — the sentinel value
at index 1, at/beyond the effective length, is emitted (`timeseries_to_str`
canonicalizes without `remove_nans`). -/
theorem C2_counterexample :
    ts_size (TSInput.oneD [some 1, none]) = 1 ∧
    timeseries_to_str (fun _ => ['1']) (TSInput.oneD [some 1, none])
      = ['1', ' ', 'n', 'a', 'n'] := by
  constructor
  · decide
  · decide

/-- Claim C2 as amended — for each feature dimension the encoder emits one
formatted token per timestep of the full canonical series, sentinel
timesteps included (the sentinel is emitted as the formatted NaN token),
rather than only the first effective-length values: splitting the line on
`"|"` and `" "` yields `canonDim t` groups of exactly `length` tokens, the
`i`-th being the formatted value of timestep `i`. -/
theorem C2_padding_emitted (fmtF : ℚ → Str) (t : TSInput)
    (hwf : wf t) (hdpos : 0 < canonDim t) (hne : to_time_series t ≠ [])
    (htok : ∀ row ∈ to_time_series t, ∀ v ∈ row,
      ' ' ∉ formatVal fmtF v ∧ '|' ∉ formatVal fmtF v) :
    (splitOnChar '|' (timeseries_to_str fmtF t)).map (splitOnChar ' ')
      = (List.range (canonDim t)).map (fun j =>
          (to_time_series t).map (fun row => formatVal fmtF (row.getD j none))) :=
  decode_split_encode fmtF t hwf hdpos hne htok

/-- Witness for the amended C2 at the series `[1, NaN]`: both tokens,
including the `"nan"` for the padding position, appear in the split line. -/
theorem C2_padding_emitted_witness :
    (0 < canonDim (TSInput.oneD [some 1, none])) ∧
    (splitOnChar '|' (timeseries_to_str (fun _ => ['1'])
        (TSInput.oneD [some 1, none]))).map (splitOnChar ' ')
      = [[['1'], ['n', 'a', 'n']]] := by
  refine ⟨by decide, ?_⟩
  have h := C2_padding_emitted (fun _ => ['1']) (TSInput.oneD [some 1, none])
    trivial (by decide) (by decide) (by decide)
  rw [h]
  decide

/-- Claim C3 — decode is a left inverse of encode: for every well-formed
series, decoding the encoded line reproduces the canonical series exactly,
whenever the token parser inverts the formatter on the values of the series
(the rational-model reading of "within the precision implied by `fmt`";
for a series with no internal sentinel values this gives back exactly its
`(L, d)` values). -/
theorem C3_decode_encode (fmtF : ℚ → Str) (parseF : Str → Val) (t : TSInput)
    (hwf : wf t) (hdpos : 0 < canonDim t) (hne : to_time_series t ≠ [])
    (htok : ∀ row ∈ to_time_series t, ∀ v ∈ row,
      ' ' ∉ formatVal fmtF v ∧ '|' ∉ formatVal fmtF v ∧
        parseF (formatVal fmtF v) = v) :
    str_to_timeseries parseF (timeseries_to_str fmtF t) = to_time_series t := by
  have hvmem : ∀ row ∈ to_time_series t, ∀ j < canonDim t,
      row.getD j none ∈ row := by
    intro row hrow j hj
    exact getD_mem_of_lt row j none
      (by rw [row_length_of_wf t hwf row hrow]; exact hj)
  have hsplit := decode_split_encode fmtF t hwf hdpos hne
    (fun row hrow v hv => ⟨(htok row hrow v hv).1, (htok row hrow v hv).2.1⟩)
  rw [str_to_timeseries, hsplit]
  -- parse the tokens back into the columns of the canonical series
  have hcols : ((List.range (canonDim t)).map (fun j =>
        (to_time_series t).map (fun row => formatVal fmtF (row.getD j none)))).map
          (fun toks => toks.map parseF)
      = (List.range (canonDim t)).map (fun j =>
          (to_time_series t).map (fun row => row.getD j none)) := by
    rw [List.map_map]
    apply List.map_congr_left
    intro j hj
    simp only [Function.comp, List.map_map]
    apply List.map_congr_left
    intro row hrow
    simp only [Function.comp]
    exact (htok row hrow _ (hvmem row hrow j (List.mem_range.mp hj))).2.2
  rw [hcols]
  -- transposing the columns gives back the rows
  have hhead : ((List.range (canonDim t)).map (fun j =>
        (to_time_series t).map (fun row => row.getD j none))).headD []
      = (to_time_series t).map (fun row => row.getD 0 none) := by
    cases hd : canonDim t with
    | zero => omega
    | succ k => rw [List.range_succ_eq_map, List.map_cons, List.headD_cons]
  rw [npTranspose, hhead, List.length_map]
  simp only [to_time_series]
  apply List.ext_getElem
  · simp
  · intro i h1 h2
    rw [List.getElem_map, List.getElem_range, List.map_map]
    have hi : i < (to_time_series t).length := by simpa using h2
    have hinner : ∀ j ∈ List.range (canonDim t),
        (((to_time_series t).map (fun row => row.getD j none)).getD i none)
          = ((to_time_series t).getD i []).getD j none := by
      intro j _
      exact getD_map_getD (fun row => row.getD j none) (to_time_series t) i [] none hi
    calc ((List.range (canonDim t)).map ((fun col => col.getD i none) ∘
            (fun j => (to_time_series t).map (fun row => row.getD j none))))
        = (List.range (canonDim t)).map (fun j =>
            ((to_time_series t).getD i []).getD j none) :=
          List.map_congr_left hinner
      _ = (to_time_series t).getD i [] := by
          apply range_map_getD
          exact row_length_of_wf t hwf _ (getD_mem_of_lt _ i [] hi)
      _ = (to_time_series t)[i] := List.getD_eq_getElem _ [] hi

/-- Witness for C3 at the one-timestep series `[[1]]` with a formatter the
parser inverts on its value. -/
theorem C3_decode_encode_witness :
    (∀ row ∈ to_time_series (TSInput.twoD [[some 1]]), ∀ v ∈ row,
      ' ' ∉ formatVal (fun _ => ['1']) v ∧ '|' ∉ formatVal (fun _ => ['1']) v ∧
        (fun s => if s = ['1'] then some (1 : ℚ) else none)
          (formatVal (fun _ => ['1']) v) = v) ∧
    str_to_timeseries (fun s => if s = ['1'] then some (1 : ℚ) else none)
        (timeseries_to_str (fun _ => ['1']) (TSInput.twoD [[some 1]]))
      = [[some 1]] :=
  ⟨by decide,
    C3_decode_encode (fun _ => ['1'])
      (fun s => if s = ['1'] then some (1 : ℚ) else none)
      (TSInput.twoD [[some 1]]) (by decide) (by decide) (by decide) (by decide)⟩

/-! ### `LabelCategorizer` round trip (claim C7) -/

theorem oneHotRow_length (C idx : Nat) : (oneHotRow C idx).length = C := by
  simp [oneHotRow]

theorem oneHotRow_struct : ∀ (C idx : Nat), idx < C →
    oneHotRow C idx
      = List.replicate idx 0 ++ 1 :: List.replicate (C - idx - 1) 0 := by
  intro C
  induction C with
  | zero => intro idx h; omega
  | succ k ih =>
    intro idx h
    cases idx with
    | zero =>
      simp [oneHotRow, List.replicate_succ]
    | succ j =>
      have hj : j < k := by omega
      have := ih j hj
      simp only [oneHotRow, List.replicate_succ, List.set_cons_succ] at this ⊢
      rw [this]
      simp [Nat.succ_sub_one]

theorem argmaxAux_no_improve : ∀ (xs : List ℚ) (best : ℚ) (bIdx i : Nat),
    (∀ x ∈ xs, ¬ best < x) → argmaxAux best bIdx i xs = bIdx := by
  intro xs
  induction xs with
  | nil => intro best bIdx i _; rfl
  | cons x rest ih =>
    intro best bIdx i h
    rw [argmaxAux, if_neg (h x (List.mem_cons_self x _))]
    exact ih best bIdx (i + 1) (fun u hu => h u (List.mem_cons_of_mem _ hu))

theorem argmaxAux_zeros_then_one : ∀ (k : Nat) (m : Nat) (bIdx i : Nat),
    argmaxAux 0 bIdx i (List.replicate k (0 : ℚ) ++ 1 :: List.replicate m 0)
      = i + k := by
  intro k
  induction k with
  | zero =>
    intro m bIdx i
    have hno : ∀ x ∈ List.replicate m (0 : ℚ), ¬ (1 : ℚ) < x := by
      intro x hx
      rw [List.eq_of_mem_replicate hx]
      norm_num
    rw [List.replicate_zero, List.nil_append, argmaxAux,
      if_pos (by norm_num : (0 : ℚ) < 1),
      argmaxAux_no_improve _ _ _ _ hno]
    omega
  | succ k2 ih =>
    intro m bIdx i
    rw [List.replicate_succ, List.cons_append, argmaxAux,
      if_neg (by norm_num : ¬ (0 : ℚ) < 0), ih m bIdx (i + 1)]
    omega

theorem argmax_oneHotRow (C idx : Nat) (h : idx < C) :
    argmax (oneHotRow C idx) = idx := by
  rw [oneHotRow_struct C idx h]
  cases idx with
  | zero =>
    have hno : ∀ x ∈ List.replicate (C - 0 - 1) (0 : ℚ), ¬ (1 : ℚ) < x := by
      intro x hx
      rw [List.eq_of_mem_replicate hx]
      norm_num
    rw [List.replicate_zero, List.nil_append, argmax,
      argmaxAux_no_improve _ _ _ _ hno]
  | succ j =>
    rw [List.replicate_succ, List.cons_append, argmax,
      argmaxAux_zeros_then_one j _ 0 1]
    omega

theorem mapM_map_id {α β : Type} (g : α → β) (h : β → Option α) :
    ∀ l : List α, (∀ a ∈ l, h (g a) = some a) → (l.map g).mapM h = some l := by
  intro l
  induction l with
  | nil => intro _; rfl
  | cons x xs ih =>
    intro hl
    rw [List.map_cons, List.mapM_cons, hl x (List.mem_cons_self x _),
      ih (fun a ha => hl a (List.mem_cons_of_mem _ ha))]
    rfl

/-- Claim C7 — for every nonempty finite (numeric) label vector `y` and a
`LabelCategorizer` fitted on `y`, `inverse_transform (transform y)` gives
back `y` element-wise, both with `single_column_if_binary` enabled and
disabled. (`y` is nonempty because a label vector is paired 1:1 with the
entries of a dataset, and a dataset canonicalizes only when nonempty.) -/
theorem C7_label_roundtrip (b : Bool) (y : List ℚ) (hne : y ≠ []) :
    (((LabelCategorizer.init b).fit y).transform y).bind
      (((LabelCategorizer.init b).fit y).inverse_transform) = some y := by
  have hmem : ∀ v ∈ y, v ∈ sortedValues y := by
    intro v hv
    rw [sortedValues, List.mem_insertionSort, List.mem_dedup]
    exact hv
  have hidxlt : ∀ v ∈ y,
      List.indexOf v (sortedValues y) < (sortedValues y).length :=
    fun v hv => List.indexOf_lt_length.mpr (hmem v hv)
  have hget : ∀ v ∈ y,
      (sortedValues y).get? (List.indexOf v (sortedValues y)) = some v := by
    intro v hv
    rw [List.get?_eq_getElem?, List.getElem?_eq_getElem (hidxlt v hv),
      List.getElem_indexOf (hidxlt v hv)]
  obtain ⟨v0, ytl, rfl⟩ := List.exists_cons_of_ne_nil hne
  set yy := v0 :: ytl with hyy
  set lc := (LabelCategorizer.init b).fit yy with hlc
  have hback : lc.backward_match = sortedValues yy := rfl
  have hsing : lc.single_column_if_binary = b := rfl
  set C := (sortedValues yy).length with hCdef
  -- the rows produced by the one-hot loop
  have hrows : yy.mapM (fun v => Option.bind (lc.forward_match v) (fun idx =>
      if idx < lc.backward_match.length then
        some (oneHotRow lc.backward_match.length idx)
      else none))
      = some (yy.map (fun v => oneHotRow C (List.indexOf v (sortedValues yy)))) := by
    apply mapM_eq_some_map
    intro v hv
    have hfwd : lc.forward_match v = some (List.indexOf v (sortedValues yy)) := by
      show (if v ∈ sortedValues yy
        then some (List.indexOf v (sortedValues yy)) else none) = _
      rw [if_pos (hmem v hv)]
    rw [hfwd]
    show (if List.indexOf v (sortedValues yy) < lc.backward_match.length
      then some (oneHotRow lc.backward_match.length
        (List.indexOf v (sortedValues yy))) else none) = _
    rw [hback, if_pos (hidxlt v hv)]
  rw [LabelCategorizer.transform, hrows, Option.map_some']
  by_cases hcb : lc.backward_match.length = 2 ∧ lc.single_column_if_binary = true
  · -- collapsed binary case: C = 2 and the flag is set
    rw [if_pos hcb]
    have hC2 : C = 2 := by rw [hCdef, ← hback]; exact hcb.1
    rw [Option.some_bind, LabelCategorizer.inverse_transform,
      if_neg (by simp [hyy]), List.map_map]
    have hhead : ((yy.map ((fun r => [r.headD 0]) ∘
        (fun v => oneHotRow C (List.indexOf v (sortedValues yy))))).headD []).length
        = 1 := by
      rw [hyy, List.map_cons, List.headD_cons]
      rfl
    rw [if_pos ⟨hhead, hcb.2⟩, List.map_map]
    apply mapM_map_id
    intro v hv
    have hlt : List.indexOf v (sortedValues yy) < 2 := hC2 ▸ hidxlt v hv
    have hv2 := hget v hv
    simp only [Function.comp]
    have h01 : List.indexOf v (sortedValues yy) = 0
        ∨ List.indexOf v (sortedValues yy) = 1 := by omega
    rcases h01 with h0 | h1
    · rw [h0] at hv2 ⊢
      have : oneHotRow C 0 = [1, 0] := by rw [hC2]; decide
      rw [this]
      show lc.backward_match.get? (argmax ([(1 : ℚ)] ++ [1 - 1])) = some v
      norm_num
      rw [show argmax [(1 : ℚ), 0] = 0 from by decide]
      rw [List.get?_eq_getElem?] at hv2
      exact hv2
    · rw [h1] at hv2 ⊢
      have : oneHotRow C 1 = [0, 1] := by rw [hC2]; decide
      rw [this]
      show lc.backward_match.get? (argmax ([(0 : ℚ)] ++ [1 - 0])) = some v
      norm_num
      rw [show argmax [(0 : ℚ), 1] = 1 from by decide]
      rw [List.get?_eq_getElem?] at hv2
      exact hv2
  · -- no collapse: rows stay one-hot of width C
    rw [if_neg hcb, Option.some_bind, LabelCategorizer.inverse_transform,
      if_neg (by simp [hyy])]
    have hhead : ((yy.map (fun v =>
        oneHotRow C (List.indexOf v (sortedValues yy)))).headD []).length = C := by
      rw [hyy, List.map_cons, List.headD_cons, oneHotRow_length]
    by_cases hc1 : C = 1 ∧ lc.single_column_if_binary = true
    · -- a single fitted class with the flag set: the (n, 1) expansion runs
      rw [if_pos ⟨by rw [hhead, hc1.1], hc1.2⟩, List.map_map]
      apply mapM_map_id
      intro v hv
      have hlt : List.indexOf v (sortedValues yy) < 1 := hc1.1 ▸ hidxlt v hv
      have h0 : List.indexOf v (sortedValues yy) = 0 := by omega
      have hv2 := hget v hv
      rw [h0] at hv2
      simp only [Function.comp, h0]
      have : oneHotRow C 0 = [1] := by rw [hc1.1]; decide
      rw [this]
      show lc.backward_match.get? (argmax ([(1 : ℚ)] ++ [1 - 1])) = some v
      norm_num
      rw [show argmax [(1 : ℚ), 0] = 0 from by decide]
      rw [List.get?_eq_getElem?] at hv2
      exact hv2
    · -- generic case: no expansion, argmax of a one-hot row is its index
      have hcond : ¬ (((yy.map (fun v =>
          oneHotRow C (List.indexOf v (sortedValues yy)))).headD []).length = 1
            ∧ lc.single_column_if_binary = true) := by
        rw [hhead]
        intro hand
        exact hc1 hand
      rw [if_neg hcond]
      apply mapM_map_id
      intro v hv
      rw [argmax_oneHotRow C _ (hidxlt v hv)]
      exact hget v hv

/-- Witness for C7 at the label vector `[-1, 2, 1, 1, 2]` with the binary
flag disabled. -/
theorem C7_label_roundtrip_witness :
    (([-1, 2, 1, 1, 2] : List ℚ) ≠ []) ∧
    ((((LabelCategorizer.init false).fit [-1, 2, 1, 1, 2]).transform
        [-1, 2, 1, 1, 2]).bind
      (((LabelCategorizer.init false).fit [-1, 2, 1, 1, 2]).inverse_transform))
      = some [-1, 2, 1, 1, 2] :=
  ⟨by decide, C7_label_roundtrip false [-1, 2, 1, 1, 2] (by decide)⟩

end Tslearn
